import Mathlib

/-!
Shallow embedding of the repository-synchronization core of `xdeb-install`
(package `xdeb`, file `pkg/sync.go` plus the download/compression helpers),
together with proofs about the embedded operations.

Go strings and byte slices are modelled as `List Char` (Go strings are byte
sequences; all data relevant here is treated character-wise).  HTTP, the two
remote decompressors (`xz`, `gzip`) and YAML marshalling are external
collaborators and appear as explicit oracle parameters.  File-system writes
are modelled by returning the list of `(path, content)` pairs the code would
write.
-/

deriving instance DecidableEq for Except

namespace Xdeb

/-- Go strings / byte slices, modelled character-wise. -/
abbrev GoString := List Char

/-- Coerce a Lean string literal into the model's string type. -/
def gs (s : String) : GoString := s.data

/-! ## Go `strings` primitives

`strings.Split(s, sep)` (for non-empty `sep`) splits `s` around every
leftmost, non-overlapping occurrence of `sep`.  We implement it with an
explicit occurrence finder `breakOn` and a fuel-indexed recursion
(`splitGoF`), so that everything reduces inside the kernel.
-/

/-- First occurrence of `sep` in `s`: `some (before, after)` where
`s = before ++ sep ++ after` and `before` contains no earlier occurrence;
`none` if `sep` does not occur. -/
def breakOn (sep : GoString) : GoString → Option (GoString × GoString)
  | [] => none
  | c :: cs =>
    if sep.isPrefixOf (c :: cs) then
      some ([], (c :: cs).drop sep.length)
    else
      match breakOn sep cs with
      | none => none
      | some (b, a) => some (c :: b, a)

/-- Fuel-indexed splitting loop. -/
def splitGoF : Nat → GoString → GoString → List GoString
  | 0, _, s => [s]
  | fuel + 1, sep, s =>
    match breakOn sep s with
    | none => [s]
    | some (b, a) => b :: splitGoF fuel sep a

/-- Go's `strings.Split`.  For an empty separator Go splits into individual
characters; all call sites in the embedded code use non-empty separators. -/
def splitGo (sep s : GoString) : List GoString :=
  if sep = [] then s.map (fun c => [c]) else splitGoF (s.length + 1) sep s

/-! ## Data model (`pkg/sync.go`) -/

structure PackageListsProvider where
  Name : GoString
  Custom : Bool
  Url : GoString
  Architecture : GoString
  Components : List GoString
  Distributions : List GoString
deriving DecidableEq, Repr

structure PackageListsDefinition where
  Providers : List PackageListsProvider
deriving DecidableEq, Repr

structure XdebPackageDefinition where
  Name : GoString
  Version : GoString
  Url : GoString
  Sha256 : GoString
deriving DecidableEq, Repr

structure XdebProviderDefinition where
  Xdeb : List XdebPackageDefinition
deriving DecidableEq, Repr

/-! ## Index parser (`parsePackagesFile`)

The Go loop reads, per record, lines recognized by the prefixes
`Package:`, `Version:`, `Filename:`, `SHA256:` and stores
`strings.Split(line, ": ")[1]` — the element between the first and second
separator.  The `[1]` access panics when the line holds no `": "`;
a panic is modelled by `none`.
-/

/-- One line of a record, updating the entry under construction.
`none` models the Go runtime panic of the unguarded `[1]` index. -/
def parsePackagesLine (urlPrefix : GoString) (entry : XdebPackageDefinition)
    (line : GoString) : Option XdebPackageDefinition :=
  if (gs "Package:").isPrefixOf line then
    match (splitGo (gs ": ") line)[1]? with
    | none => none
    | some v => some { entry with Name := v }
  else if (gs "Version:").isPrefixOf line then
    match (splitGo (gs ": ") line)[1]? with
    | none => none
    | some v => some { entry with Version := v }
  else if (gs "Filename:").isPrefixOf line then
    match (splitGo (gs ": ") line)[1]? with
    | none => none
    | some suffix => some { entry with Url := urlPrefix ++ '/' :: suffix }
  else if (gs "SHA256:").isPrefixOf line then
    match (splitGo (gs ": ") line)[1]? with
    | none => none
    | some v => some { entry with Sha256 := v }
  else
    some entry

/-- One record (`package_data`): scan its lines, starting from empty fields. -/
def parsePackagesRecord (urlPrefix : GoString) (package_data : GoString) :
    Option XdebPackageDefinition :=
  (splitGo (gs "\n") package_data).foldlM (parsePackagesLine urlPrefix)
    ⟨[], [], [], []⟩

/-- Go `parsePackagesFile`: split the blob on blank lines, skip empty
records, parse each remaining record in order.  `none` models a panic. -/
def parsePackagesFile (urlPrefix : GoString) (packages_file : GoString) :
    Option XdebProviderDefinition :=
  (splitGo (gs "\n\n") packages_file).foldlM
    (fun acc package_data =>
      if package_data.length = 0 then
        some acc
      else
        match parsePackagesRecord urlPrefix package_data with
        | none => none
        | some entry => some (acc ++ [entry]))
    [] |>.map (fun entries => ⟨entries⟩)

/-! ## External collaborators

HTTP responses carry the status code, the body, and the final resolved
request URL rebuilt by the Go code as `scheme://host/path`
(`resp.Request.URL.Scheme/Host/Path` after redirects). -/

structure HttpResponse where
  StatusCode : Nat
  FinalUrl : GoString
  Body : GoString
deriving DecidableEq, Repr

/-- `http.Get` / `client.Get` oracle: transport error message or response. -/
abbrev HttpOracle := GoString → Except GoString HttpResponse

/-- Remote decompressor oracle (`xz.NewReader`/`gzip.NewReader` followed by
`io.ReadAll`, collapsed into one fallible byte transformation). -/
abbrev DecompressOracle := GoString → Except GoString GoString

/-- `yaml.Marshal` oracle for snapshot serialization (`yaml.Marshal` cannot
fail on this struct shape, so it is modelled total). -/
abbrev MarshalOracle := XdebProviderDefinition → GoString

/-- Errors surfaced by the embedded operations.  `panicIndexOutOfRange`
models the Go runtime panic of `strings.Split(line, ": ")[1]`. -/
inductive XErr where
  | transport (msg : GoString)
  | decode (msg : GoString)
  | downloadFailed (url : GoString)
  | panicIndexOutOfRange
  | unknownProvider (name : GoString) (valid : List GoString)
deriving DecidableEq, Repr

/-! ## On-disk compression codec

`compressData`/`decompressData` wrap the third-party zstd library
(`github.com/klauspost/compress/zstd`), whose code is not part of this
repository.  Modelled from the spec: §4.1 requires a symmetric
compress/decompress pair whose decompression fails on a stream that is not
validly framed in the adapter's own codec.  The frame is modelled as the
zstd magic marker followed by the raw payload. -/

/-- The codec's frame marker (the zstd magic number, character-coded). -/
def zstdMagic : GoString :=
  [Char.ofNat 0x28, Char.ofNat 0xB5, Char.ofNat 0x2F, Char.ofNat 0xFD]

/-- `compressData` (spec-modelled codec core): frame the payload. -/
def compressData (data : GoString) : GoString := zstdMagic ++ data

/-- `decompressData` (spec-modelled codec core): check and strip the frame;
fail on anything not produced by `compressData`. -/
def decompressData (data : GoString) : Except GoString GoString :=
  if zstdMagic.isPrefixOf data then .ok (data.drop zstdMagic.length)
  else .error (gs "invalid input: magic number mismatch")

/-! ## File layer (`utils.go` half of the source blob) -/

/-- `filepath.Join` for two components (path cleaning is irrelevant for the
slash-free components used here). -/
def filepathJoin (a b : GoString) : GoString := a ++ '/' :: b

/-- `filepath.Base`: strip trailing slashes, keep everything after the last
remaining slash. -/
def filepathBase (s : GoString) : GoString :=
  if s = [] then gs "." else
    let t := (s.reverse.dropWhile (fun c => c = '/')).reverse
    if t = [] then gs "/" else (t.reverse.takeWhile (fun c => c ≠ '/')).reverse

/-- `writeFile path data compress`: returns the `(fullPath, bytes)` pair the
Go function creates on disk — with `compress` set it zstd-compresses the
data and appends `.zst` to the path. -/
def writeFile (path : GoString) (data : GoString) (compress : Bool) :
    GoString × GoString :=
  if compress then (path ++ gs ".zst", compressData data) else (path, data)

/-- `DownloadFile path url followRedirects compress`: fetch `url`, on
`followRedirects` re-issue the request at the final resolved URL, fail on
transport errors or a non-200 status with the `Could not download file`
error, otherwise persist the body via `writeFile` under
`filepath.Join(path, filepath.Base(url))`. -/
def DownloadFile (get : HttpOracle) (path url : GoString)
    (followRedirects compress : Bool) : Except XErr (GoString × GoString) :=
  match get url with
  | .error _ => .error (.downloadFailed url)
  | .ok resp =>
    let (url2, respE) :=
      if followRedirects then (resp.FinalUrl, get resp.FinalUrl)
      else (url, Except.ok resp)
    match respE with
    | .error _ => .error (.downloadFailed url2)
    | .ok resp =>
      if resp.StatusCode ≠ 200 then .error (.downloadFailed url2)
      else .ok (writeFile (filepathJoin path (filepathBase url2)) resp.Body compress)

/-! ## Repository fetcher (`pullPackagesFile`, `pullAptRepository`,
`pullCustomRepository`) -/

/-- The candidate APT index URL
`<base>/dists/<dist>/<component>/binary-<arch>/Packages`. -/
def aptIndexUrl (urlPrefix dist component architecture : GoString) : GoString :=
  urlPrefix ++ gs "/dists/" ++ dist ++ gs "/" ++ component ++
    gs "/binary-" ++ architecture ++ gs "/Packages"

/-- `pullPackagesFile`: build the APT index URL, fall back from plain to
`.xz` to `.gz` on non-200 statuses, give up as a no-op (`ok none`) when all
three fail, otherwise decompress according to the final resolved URL's
suffix and parse.  A `parsePackagesFile` panic surfaces as
`panicIndexOutOfRange`. -/
def pullPackagesFile (get : HttpOracle) (xzDec gzDec : DecompressOracle)
    (urlPrefix dist component architecture : GoString) :
    Except XErr (Option XdebProviderDefinition) :=
  let url := aptIndexUrl urlPrefix dist component architecture
  match get url with
  | .error e => .error (.transport e)
  | .ok resp =>
    match (if resp.StatusCode ≠ 200 then get (url ++ gs ".xz") else .ok resp :
        Except GoString HttpResponse) with
    | .error e => .error (.transport e)
    | .ok resp =>
      match (if resp.StatusCode ≠ 200 then get (url ++ gs ".gz") else .ok resp :
          Except GoString HttpResponse) with
      | .error e => .error (.transport e)
      | .ok resp =>
        if resp.StatusCode ≠ 200 then .ok none
        else
          let requestUrl := resp.FinalUrl
          let bodyE : Except GoString GoString :=
            if (gs ".xz").isSuffixOf requestUrl then xzDec resp.Body
            else if (gs ".gz").isSuffixOf requestUrl then gzDec resp.Body
            else .ok resp.Body
          match bodyE with
          | .error e => .error (.decode e)
          | .ok output =>
            match parsePackagesFile urlPrefix output with
            | none => .error .panicIndexOutOfRange
            | some definition => .ok (some definition)

/-- `pullAptRepository`: fetch and parse one (dist, component) index; when a
definition with at least one entry came back, marshal it and write
`<directory>/<dist>/<component>.yaml` compressed (so `.zst` is appended).
The returned list holds the file writes performed. -/
def pullAptRepository (get : HttpOracle) (xzDec gzDec : DecompressOracle)
    (marshal : MarshalOracle) (directory url dist component architecture : GoString) :
    Except XErr (List (GoString × GoString)) :=
  match pullPackagesFile get xzDec gzDec url dist component architecture with
  | .error e => .error e
  | .ok none => .ok []
  | .ok (some definition) =>
    if definition.Xdeb.length > 0 then
      let filePath := filepathJoin directory (filepathJoin dist (component ++ gs ".yaml"))
      let data := marshal definition
      .ok [writeFile filePath data true]
    else .ok []

/-- `pullCustomRepository`: direct download of `<urlPrefix>/<dist>/<component>`
into `<directory>/<dist>` via `DownloadFile` with `followRedirects = false`
and `compress = true`.  The returned list holds the file writes performed. -/
def pullCustomRepository (get : HttpOracle) (directory urlPrefix dist component : GoString) :
    Except XErr (List (GoString × GoString)) :=
  let url := urlPrefix ++ '/' :: dist ++ '/' :: component
  match DownloadFile get (filepathJoin directory dist) url false true with
  | .error e => .error e
  | .ok write => .ok [write]

/-! ## Sync orchestrator (`SyncRepositories`) -/

/-- One fetch job: a (provider, distribution, component) triple. -/
structure SyncJob where
  provider : PackageListsProvider
  distribution : GoString
  component : GoString
deriving DecidableEq, Repr

/-- The names of all providers of the manifest, in manifest order. -/
def availableProviderNames (lists : PackageListsDefinition) : List GoString :=
  lists.Providers.map (fun p => p.Name)

/-- The providers `SyncRepositories` iterates over: the whole manifest when
no names were requested, otherwise the manifest subsequence whose names are
requested. -/
def selectedProviders (lists : PackageListsDefinition)
    (providerNames : List GoString) : List PackageListsProvider :=
  if providerNames.length > 0 then
    lists.Providers.filter (fun p => providerNames.contains p.Name)
  else
    lists.Providers

/-- All jobs of one provider: distributions × components, in loop order. -/
def providerJobs (p : PackageListsProvider) : List SyncJob :=
  (p.Distributions.map (fun d => p.Components.map (fun c => ⟨p, d, c⟩))).flatten

/-- Run one job: choose the fetch strategy by `Custom` and keep only the
error outcome (the channel value the goroutine sends). -/
def runJob (get : HttpOracle) (xzDec gzDec : DecompressOracle)
    (marshal : MarshalOracle) (path : GoString) (j : SyncJob) : Option XErr :=
  let directory := filepathJoin path j.provider.Name
  if j.provider.Custom then
    match pullCustomRepository get directory j.provider.Url j.distribution j.component with
    | .error e => some e
    | .ok _ => none
  else
    match pullAptRepository get xzDec gzDec marshal directory j.provider.Url
        j.distribution j.component j.provider.Architecture with
    | .error e => some e
    | .ok _ => none

/-- The first error drained from one provider's result channel (aggregation
order modelled as dispatch order). -/
def providerError (get : HttpOracle) (xzDec gzDec : DecompressOracle)
    (marshal : MarshalOracle) (path : GoString) (p : PackageListsProvider) :
    Option XErr :=
  ((providerJobs p).map (runJob get xzDec gzDec marshal path)).findSome? id

/-- Provider loop of `SyncRepositories`: dispatch all jobs of each provider,
drain its errors, stop at the first provider whose drain reports an error.
Returns the outcome and the list of all jobs that were dispatched. -/
def syncSelected (get : HttpOracle) (xzDec gzDec : DecompressOracle)
    (marshal : MarshalOracle) (path : GoString) :
    List PackageListsProvider → Option XErr × List SyncJob
  | [] => (none, [])
  | p :: ps =>
    match providerError get xzDec gzDec marshal path p with
    | some e => (some e, providerJobs p)
    | none =>
      let rest := syncSelected get xzDec gzDec marshal path ps
      (rest.1, providerJobs p ++ rest.2)

/-- `SyncRepositories`: validate the requested names against the manifest
(first unknown name aborts with the `Provider ... not supported` error,
before any job is dispatched), then run the selected providers in manifest
order. -/
def SyncRepositories (get : HttpOracle) (xzDec gzDec : DecompressOracle)
    (marshal : MarshalOracle) (path : GoString) (lists : PackageListsDefinition)
    (providerNames : List GoString) : Option XErr × List SyncJob :=
  let avail := availableProviderNames lists
  match providerNames.find? (fun n => !(avail.contains n)) with
  | some n => (some (.unknownProvider n avail), [])
  | none => syncSelected get xzDec gzDec marshal path (selectedProviders lists providerNames)

/-! ## Well-formed index records

`mkRecord` builds the canonical well-formed APT record with the four
recognized fields; `CleanValue` states that a field value stays on its line
and contains no further `": "` separator. -/

/-- A well-formed record: the four recognized lines in canonical order. -/
def mkRecord (n v f s : GoString) : GoString :=
  gs "Package: " ++ n ++ '\n' :: (gs "Version: " ++ v ++ '\n' ::
    (gs "Filename: " ++ f ++ '\n' :: (gs "SHA256: " ++ s)))

/-- A field value that stays on its line and holds no `": "` separator. -/
def CleanValue (v : GoString) : Prop :=
  '\n' ∉ v ∧ List.Chain' (fun c₁ c₂ => ¬(c₁ = ':' ∧ c₂ = ' ')) v

instance (v : GoString) : Decidable (CleanValue v) := by
  unfold CleanValue; infer_instance

/-! ## Concrete fixtures used by witnesses and counterexamples -/

/-- Identity decompressor oracle. -/
def decId : DecompressOracle := fun b => .ok b

/-- A fixed marshalling oracle. -/
def marshalConst : MarshalOracle := fun _ => gs "yaml-snapshot"

/-- Oracle answering every URL with status 404. -/
def http404 : HttpOracle := fun u => .ok ⟨404, u, []⟩

/-- Oracle answering every URL with status 200 and a fixed payload. -/
def http200Payload : HttpOracle := fun u => .ok ⟨200, u, gs "PAYLOAD"⟩

/-- Oracle whose final resolved URL carries an unexpected `.bz2` suffix. -/
def httpBz2Index : HttpOracle := fun _ =>
  .ok ⟨200, gs "http://host/Packages.bz2",
    gs "Package: a\nVersion: 1\nFilename: f\nSHA256: h"⟩

/-- Oracle failing every request at the transport level. -/
def httpDown : HttpOracle := fun _ => .error (gs "connection refused")

/-- A two-provider manifest fixture. -/
def manifestTwo : PackageListsDefinition :=
  ⟨[⟨gs "p1", false, gs "http://a", gs "amd64", [gs "main"], [gs "stable"]⟩,
    ⟨gs "p2", false, gs "http://b", gs "amd64", [gs "main"], [gs "stable"]⟩]⟩

/-! ## Theorems -/

/-- C6: decompressing the result of compressing any payload — including the
empty one — with the on-disk codec yields exactly that payload. -/
theorem decompressData_compressData_roundtrip (x : GoString) :
    decompressData (compressData x) = .ok x := by
  simp [decompressData, compressData, zstdMagic, List.isPrefixOf]

/-- C10: `parsePackagesFile` is not total — on a record whose line carries a
recognized prefix but no `": "` separator, the unguarded
`strings.Split(line, ": ")[1]` access is out of range; the model returns the
panic marker `none`. -/
theorem parsePackagesFile_panics_without_separator :
    (gs "Package:").isPrefixOf (gs "Package:x") = true ∧
    splitGo (gs ": ") (gs "Package:x") = [gs "Package:x"] ∧
    parsePackagesFile (gs "p") (gs "Package:x") = none := by
  decide

/-- C4 counterexample: for the recognized line `Package: foo: bar`, whose
value contains a further `": "`, the stored name is `foo` — not the whole
remainder `foo: bar` after the first separator, as the claim states. -/
theorem parsePackagesFile_truncates_at_second_separator_cx :
    parsePackagesFile (gs "p") (gs "Package: foo: bar") =
      some ⟨[⟨gs "foo", [], [], []⟩]⟩ ∧
    gs "foo" ≠ gs "foo: bar" := by
  decide

/-- C1: when the plain, `.xz` and `.gz` index URLs all answer with a
non-success status and no transport error, the fetch is a no-op success:
`pullPackagesFile` returns neither an error nor a definition, and
`pullAptRepository` returns no error and writes no file. -/
theorem pullAptRepository_noop_on_exhausted_fallback
    (get : HttpOracle) (xzDec gzDec : DecompressOracle) (marshal : MarshalOracle)
    (directory urlPrefix dist component architecture : GoString)
    (r₀ r₁ r₂ : HttpResponse)
    (h₀ : get (aptIndexUrl urlPrefix dist component architecture) = .ok r₀)
    (hs₀ : r₀.StatusCode ≠ 200)
    (h₁ : get (aptIndexUrl urlPrefix dist component architecture ++ gs ".xz") = .ok r₁)
    (hs₁ : r₁.StatusCode ≠ 200)
    (h₂ : get (aptIndexUrl urlPrefix dist component architecture ++ gs ".gz") = .ok r₂)
    (hs₂ : r₂.StatusCode ≠ 200) :
    pullPackagesFile get xzDec gzDec urlPrefix dist component architecture = .ok none ∧
    pullAptRepository get xzDec gzDec marshal directory urlPrefix dist component
      architecture = .ok [] := by
  have hp : pullPackagesFile get xzDec gzDec urlPrefix dist component architecture
      = .ok none := by
    simp only [pullPackagesFile]
    rw [h₀]
    simp only [if_pos hs₀]
    rw [h₁]
    simp only [if_pos hs₁]
    rw [h₂]
    simp only [if_pos hs₂]
  refine ⟨hp, ?_⟩
  unfold pullAptRepository
  rw [hp]

/-- Witness for C1 at a concrete all-404 oracle. -/
theorem pullAptRepository_noop_on_exhausted_fallback_witness :
    pullPackagesFile http404 decId decId (gs "http://m") (gs "stable") (gs "main")
      (gs "amd64") = .ok none ∧
    pullAptRepository http404 decId decId marshalConst (gs "root/p1") (gs "http://m")
      (gs "stable") (gs "main") (gs "amd64") = .ok [] :=
  pullAptRepository_noop_on_exhausted_fallback http404 decId decId marshalConst
    (gs "root/p1") (gs "http://m") (gs "stable") (gs "main") (gs "amd64")
    ⟨404, aptIndexUrl (gs "http://m") (gs "stable") (gs "main") (gs "amd64"), []⟩
    ⟨404, aptIndexUrl (gs "http://m") (gs "stable") (gs "main") (gs "amd64") ++ gs ".xz", []⟩
    ⟨404, aptIndexUrl (gs "http://m") (gs "stable") (gs "main") (gs "amd64") ++ gs ".gz", []⟩
    rfl (by decide) rfl (by decide) rfl (by decide)

theorem takeWhile_append_stop {p : Char → Bool} (a : List Char) (x : Char)
    (rest : List Char) (ha : ∀ c ∈ a, p c = true) (hx : p x = false) :
    (a ++ x :: rest).takeWhile p = a := by
  induction a with
  | nil => simp [List.takeWhile_cons, hx]
  | cons c cs ih =>
    have hc : p c = true := ha c (List.mem_cons_self c cs)
    simp only [List.cons_append, List.takeWhile_cons, hc, if_true]
    rw [ih (fun d hd => ha d (List.mem_cons_of_mem c hd))]

/-- `filepath.Base` of a URL whose last segment is non-empty and slash-free
is that segment. -/
theorem filepathBase_append_slashfree (a comp : GoString) (h1 : comp ≠ [])
    (h2 : '/' ∉ comp) : filepathBase (a ++ '/' :: comp) = comp := by
  have hne : a ++ '/' :: comp ≠ [] := by simp
  have hrev : (a ++ '/' :: comp).reverse = comp.reverse ++ '/' :: a.reverse := by
    simp [List.reverse_append]
  have hcrev : ∀ c ∈ comp.reverse, c ≠ '/' := by
    intro c hc
    exact fun heq => h2 (heq ▸ List.mem_reverse.mp hc)
  obtain ⟨c, cs, hc⟩ := List.exists_cons_of_ne_nil (fun h => h1 (List.reverse_eq_nil_iff.mp h))
  have hdrop : ((a ++ '/' :: comp).reverse.dropWhile (fun c => c = '/')) =
      (a ++ '/' :: comp).reverse := by
    rw [hrev, hc, List.cons_append, List.dropWhile_cons]
    have : c ≠ '/' := hcrev c (hc ▸ List.mem_cons_self c cs)
    simp [this]
  unfold filepathBase
  rw [if_neg hne, hdrop, List.reverse_reverse, if_neg hne, hrev]
  rw [takeWhile_append_stop comp.reverse '/' a.reverse
    (fun d hd => by simp [hcrev d hd]) (by simp)]
  exact List.reverse_reverse comp

/-- C5 counterexample: a custom-provider download with remote filename
`main` is persisted at `.../main.zst` with a zstd-framed body — not at
`.../main` with the raw bytes, as the claim states. -/
theorem pullCustomRepository_compresses_output_cx :
    pullCustomRepository http200Payload (gs "root/p1") (gs "http://m") (gs "stable")
      (gs "main") =
      .ok [(gs "root/p1/stable/main.zst", compressData (gs "PAYLOAD"))] ∧
    gs "root/p1/stable/main.zst" ≠ gs "root/p1/stable/main" ∧
    compressData (gs "PAYLOAD") ≠ gs "PAYLOAD" := by
  decide

/-- C5 amended: the custom-provider payload is persisted under
`<root>/<provider>/<distribution>/<remote-filename>.zst`, compressed with
the on-disk codec — the remote filename survives only as the stem. -/
theorem pullCustomRepository_writes_zst (get : HttpOracle)
    (directory urlPrefix dist component : GoString) (r : HttpResponse)
    (h : get (urlPrefix ++ '/' :: dist ++ '/' :: component) = .ok r)
    (hs : r.StatusCode = 200) (hc : component ≠ []) (hsl : '/' ∉ component) :
    pullCustomRepository get directory urlPrefix dist component =
      .ok [((directory ++ '/' :: dist) ++ '/' :: component ++ gs ".zst",
        compressData r.Body)] := by
  have hassoc : urlPrefix ++ '/' :: dist ++ '/' :: component =
      (urlPrefix ++ '/' :: dist) ++ '/' :: component := by simp
  simp only [pullCustomRepository, DownloadFile]
  rw [h]
  simp only [if_neg (by trivial : ¬False), Bool.false_eq_true, if_false]
  simp only [hs, ne_eq, not_true_eq_false, if_false, ite_false]
  rw [hassoc, filepathBase_append_slashfree _ _ hc hsl]
  simp [writeFile, filepathJoin, compressData]

/-- Witness for C5 amended at a concrete 200 oracle. -/
theorem pullCustomRepository_writes_zst_witness :
    pullCustomRepository http200Payload (gs "root/p1") (gs "http://m") (gs "stable")
      (gs "main") =
      .ok [((gs "root/p1" ++ '/' :: gs "stable") ++ '/' :: gs "main" ++ gs ".zst",
        compressData (gs "PAYLOAD"))] :=
  pullCustomRepository_writes_zst http200Payload (gs "root/p1") (gs "http://m")
    (gs "stable") (gs "main")
    ⟨200, gs "http://m" ++ '/' :: gs "stable" ++ '/' :: gs "main", gs "PAYLOAD"⟩
    rfl rfl (by decide) (by decide)

/-- C8 counterexample: a successful fetch whose final resolved path ends in
`.bz2` (neither plain-intended, `.xz` nor `.gz`) is parsed as plain
pass-through and succeeds — no unsupported-format error exists in the code. -/
theorem pullPackagesFile_unknown_suffix_passthrough_cx :
    pullPackagesFile httpBz2Index decId decId (gs "http://m") (gs "s") (gs "c")
      (gs "a") = .ok (some ⟨[⟨gs "a", gs "1", gs "http://m/f", gs "h"⟩]⟩) := by
  decide

/-- C8 amended: any final resolved URL suffix other than `.xz` or `.gz` is
treated as the plain format — the body is handed to the parser unchanged and
no format error is raised. -/
theorem pullPackagesFile_unknown_suffix_passthrough (get : HttpOracle)
    (xzDec gzDec : DecompressOracle)
    (urlPrefix dist component architecture : GoString) (r : HttpResponse)
    (d : XdebProviderDefinition)
    (h : get (aptIndexUrl urlPrefix dist component architecture) = .ok r)
    (hs : r.StatusCode = 200)
    (hxz : (gs ".xz").isSuffixOf r.FinalUrl = false)
    (hgz : (gs ".gz").isSuffixOf r.FinalUrl = false)
    (hparse : parsePackagesFile urlPrefix r.Body = some d) :
    pullPackagesFile get xzDec gzDec urlPrefix dist component architecture =
      .ok (some d) := by
  simp only [pullPackagesFile]
  rw [h]
  simp [hs, hxz, hgz, hparse]

/-- Witness for C8 amended at the concrete `.bz2` oracle. -/
theorem pullPackagesFile_unknown_suffix_passthrough_witness :
    pullPackagesFile httpBz2Index decId decId (gs "http://mm") (gs "s") (gs "c")
      (gs "a") = .ok (some ⟨[⟨gs "a", gs "1", gs "http://mm/f", gs "h"⟩]⟩) :=
  pullPackagesFile_unknown_suffix_passthrough httpBz2Index decId decId
    (gs "http://mm") (gs "s") (gs "c") (gs "a")
    ⟨200, gs "http://host/Packages.bz2", gs "Package: a\nVersion: 1\nFilename: f\nSHA256: h"⟩
    ⟨[⟨gs "a", gs "1", gs "http://mm/f", gs "h"⟩]⟩
    rfl rfl (by decide) (by decide) (by decide)

/-- C2: with a non-empty request list whose names all occur in the manifest,
`SyncRepositories` passes validation and runs exactly the manifest
subsequence of providers whose name is requested: manifest order (a
sublist), exactly the requested names, and no duplicates when the manifest
names are unique. -/
theorem syncRepositories_selects_requested
    (get : HttpOracle) (xzDec gzDec : DecompressOracle) (marshal : MarshalOracle)
    (path : GoString) (lists : PackageListsDefinition) (providerNames : List GoString)
    (hne : providerNames ≠ [])
    (hall : ∀ n ∈ providerNames, n ∈ availableProviderNames lists) :
    SyncRepositories get xzDec gzDec marshal path lists providerNames =
      syncSelected get xzDec gzDec marshal path
        (lists.Providers.filter (fun p => providerNames.contains p.Name)) ∧
    selectedProviders lists providerNames =
      lists.Providers.filter (fun p => providerNames.contains p.Name) ∧
    (selectedProviders lists providerNames).Sublist lists.Providers ∧
    (∀ p, p ∈ selectedProviders lists providerNames ↔
      p ∈ lists.Providers ∧ p.Name ∈ providerNames) ∧
    ((availableProviderNames lists).Nodup →
      (selectedProviders lists providerNames).Nodup) := by
  have hsel : selectedProviders lists providerNames =
      lists.Providers.filter (fun p => providerNames.contains p.Name) := by
    unfold selectedProviders
    rw [if_pos (List.length_pos.mpr hne)]
  have hfind : providerNames.find?
      (fun n => !((availableProviderNames lists).contains n)) = none := by
    refine List.find?_eq_none.mpr (fun x hx => ?_)
    simp [hall x hx]
  refine ⟨?_, hsel, ?_, ?_, ?_⟩
  · simp only [SyncRepositories]
    rw [hfind, hsel]
  · rw [hsel]; exact List.filter_sublist _
  · intro p
    rw [hsel, List.mem_filter]
    constructor
    · exact fun ⟨h1, h2⟩ => ⟨h1, List.elem_iff.mp h2⟩
    · exact fun ⟨h1, h2⟩ => ⟨h1, List.elem_iff.mpr h2⟩
  · intro hnd
    rw [hsel]
    exact ((hnd.of_map _).sublist (List.filter_sublist _))

/-- Witness for C2 at a concrete two-provider manifest, requesting `p2`. -/
theorem syncRepositories_selects_requested_witness :
    SyncRepositories http404 decId decId marshalConst (gs "root") manifestTwo
      [gs "p2"] =
      syncSelected http404 decId decId marshalConst (gs "root")
        (manifestTwo.Providers.filter (fun p => [gs "p2"].contains p.Name)) ∧
    selectedProviders manifestTwo [gs "p2"] =
      manifestTwo.Providers.filter (fun p => [gs "p2"].contains p.Name) ∧
    (selectedProviders manifestTwo [gs "p2"]).Sublist manifestTwo.Providers ∧
    (∀ p, p ∈ selectedProviders manifestTwo [gs "p2"] ↔
      p ∈ manifestTwo.Providers ∧ p.Name ∈ [gs "p2"]) ∧
    ((availableProviderNames manifestTwo).Nodup →
      (selectedProviders manifestTwo [gs "p2"]).Nodup) :=
  syncRepositories_selects_requested http404 decId decId marshalConst (gs "root")
    manifestTwo [gs "p2"] (by decide) (by decide)

/-- C3: when the requested names contain an unknown one, `SyncRepositories`
fails with the error naming the first offending name and listing all valid
provider names, and dispatches no job at all. -/
theorem syncRepositories_rejects_unknown_provider
    (get : HttpOracle) (xzDec gzDec : DecompressOracle) (marshal : MarshalOracle)
    (path : GoString) (lists : PackageListsDefinition)
    (pre post : List GoString) (n : GoString)
    (hpre : ∀ x ∈ pre, x ∈ availableProviderNames lists)
    (hn : n ∉ availableProviderNames lists) :
    SyncRepositories get xzDec gzDec marshal path lists (pre ++ n :: post) =
      (some (.unknownProvider n (availableProviderNames lists)), []) := by
  have hcn : (availableProviderNames lists).contains n = false := by
    have : ¬ (availableProviderNames lists).contains n = true :=
      fun h => hn (List.elem_iff.mp h)
    simpa using this
  have hfind : (pre ++ n :: post).find?
      (fun m => !((availableProviderNames lists).contains m)) = some n := by
    rw [List.find?_append]
    have h1 : pre.find? (fun m => !((availableProviderNames lists).contains m)) = none := by
      refine List.find?_eq_none.mpr (fun x hx => ?_)
      simp [hpre x hx]
    rw [h1, Option.none_or, List.find?_cons]
    simp [hn]
  simp only [SyncRepositories]
  rw [hfind]

/-- Witness for C3: requesting `p1` then the unknown `zzz`. -/
theorem syncRepositories_rejects_unknown_provider_witness :
    SyncRepositories http404 decId decId marshalConst (gs "root") manifestTwo
      ([gs "p1"] ++ gs "zzz" :: []) =
      (some (.unknownProvider (gs "zzz") (availableProviderNames manifestTwo)), []) :=
  syncRepositories_rejects_unknown_provider http404 decId decId marshalConst
    (gs "root") manifestTwo [gs "p1"] [] (gs "zzz") (by decide) (by decide)

theorem syncSelected_append_first_error
    (get : HttpOracle) (xzDec gzDec : DecompressOracle) (marshal : MarshalOracle)
    (path : GoString) (pre : List PackageListsProvider) (p : PackageListsProvider)
    (post : List PackageListsProvider) (e : XErr)
    (hpre : ∀ q ∈ pre, providerError get xzDec gzDec marshal path q = none)
    (he : providerError get xzDec gzDec marshal path p = some e) :
    syncSelected get xzDec gzDec marshal path (pre ++ p :: post) =
      (some e, (pre.map providerJobs).flatten ++ providerJobs p) := by
  induction pre with
  | nil =>
    simp only [List.nil_append, syncSelected]
    rw [he]
    simp
  | cons q qs ih =>
    have hq : providerError get xzDec gzDec marshal path q = none :=
      hpre q (List.mem_cons_self q qs)
    simp only [List.cons_append, syncSelected]
    rw [hq]
    simp only [List.append_eq]
    rw [ih (fun x hx => hpre x (List.mem_cons_of_mem q hx))]
    simp [List.append_assoc]

/-- C9: if the providers selected for a run split as `pre ++ p :: post`
where every provider of `pre` aggregates no error and `p` aggregates the
error `e` first, then `SyncRepositories` returns `e` and the dispatched
jobs are exactly those of `pre` and `p` — no job of any provider of `post`
is ever dispatched. -/
theorem syncRepositories_fail_fast
    (get : HttpOracle) (xzDec gzDec : DecompressOracle) (marshal : MarshalOracle)
    (path : GoString) (lists : PackageListsDefinition) (providerNames : List GoString)
    (hvalid : providerNames.find?
      (fun n => !((availableProviderNames lists).contains n)) = none)
    (pre : List PackageListsProvider) (p : PackageListsProvider)
    (post : List PackageListsProvider) (e : XErr)
    (hsel : selectedProviders lists providerNames = pre ++ p :: post)
    (hpre : ∀ q ∈ pre, providerError get xzDec gzDec marshal path q = none)
    (he : providerError get xzDec gzDec marshal path p = some e) :
    SyncRepositories get xzDec gzDec marshal path lists providerNames =
      (some e, (pre.map providerJobs).flatten ++ providerJobs p) := by
  simp only [SyncRepositories]
  rw [hvalid, hsel]
  exact syncSelected_append_first_error get xzDec gzDec marshal path pre p post e
    hpre he

/-- Witness for C9: with the transport-failing oracle, the first provider of
the two-provider manifest errors and the second provider's job is never
dispatched. -/
theorem syncRepositories_fail_fast_witness :
    SyncRepositories httpDown decId decId marshalConst (gs "root") manifestTwo [] =
      (some (.transport (gs "connection refused")),
        (([] : List PackageListsProvider).map providerJobs).flatten ++
          providerJobs ⟨gs "p1", false, gs "http://a", gs "amd64", [gs "main"],
            [gs "stable"]⟩) :=
  syncRepositories_fail_fast httpDown decId decId marshalConst (gs "root")
    manifestTwo [] (by decide) []
    ⟨gs "p1", false, gs "http://a", gs "amd64", [gs "main"], [gs "stable"]⟩
    [⟨gs "p2", false, gs "http://b", gs "amd64", [gs "main"], [gs "stable"]⟩]
    (.transport (gs "connection refused")) (by decide) (by decide) (by decide)

/-! ### Splitting machinery

Symbolic characterization of `breakOn`/`splitGo` at separator junctions,
used to reason about `parsePackagesFile` on well-formed records. -/

theorem breakOn_some_length (sep : GoString) (hsep : sep ≠ []) :
    ∀ s b a, breakOn sep s = some (b, a) → a.length < s.length := by
  intro s
  induction s with
  | nil => intro b a h; simp [breakOn] at h
  | cons c cs ih =>
    intro b a h
    rw [breakOn] at h
    split at h
    · rename_i hpre
      obtain ⟨rfl, rfl⟩ : [] = b ∧ (c :: cs).drop sep.length = a := by
        injection h with h'; injection h' with h1 h2; exact ⟨h1, h2⟩
      have hlen : 0 < sep.length := List.length_pos.mpr hsep
      rw [List.length_drop]
      have := (List.isPrefixOf_iff_prefix.mp hpre).length_le
      simp only [List.length_cons] at *
      omega
    · revert h
      split
      · intro h; cases h
      · rename_i b' a' hbr
        intro h
        have h12 : c :: b' = b ∧ a' = a := by
          injection h with h'; injection h' with h1 h2; exact ⟨h1, h2⟩
        have hlt := ih b' a' hbr
        rw [← h12.2]
        simp only [List.length_cons]
        omega

theorem splitGoF_congr (sep : GoString) (hsep : sep ≠ []) :
    ∀ f₁ f₂ s, s.length < f₁ → s.length < f₂ →
      splitGoF f₁ sep s = splitGoF f₂ sep s := by
  intro f₁
  induction f₁ with
  | zero => intro f₂ s h; omega
  | succ f ih =>
    intro f₂ s h1 h2
    match f₂, h2 with
    | g + 1, h2 =>
      simp only [splitGoF]
      cases hbr : breakOn sep s with
      | none => rfl
      | some pair =>
        obtain ⟨b, a⟩ := pair
        have hlt := breakOn_some_length sep hsep s b a hbr
        exact congrArg (b :: ·) (ih g a (by omega) (by omega))

theorem splitGo_break_none (sep : GoString) (hsep : sep ≠ []) (s : GoString)
    (h : breakOn sep s = none) : splitGo sep s = [s] := by
  unfold splitGo
  rw [if_neg hsep]
  simp only [splitGoF, h]

theorem splitGo_break_some (sep : GoString) (hsep : sep ≠ []) (s b a : GoString)
    (h : breakOn sep s = some (b, a)) : splitGo sep s = b :: splitGo sep a := by
  unfold splitGo
  rw [if_neg hsep, if_neg hsep]
  have hs : splitGoF (s.length + 1) sep s = b :: splitGoF s.length sep a := by
    simp only [splitGoF, h]
  rw [hs]
  have hlt := breakOn_some_length sep hsep s b a h
  exact congrArg (b :: ·) (splitGoF_congr sep hsep s.length (a.length + 1) a hlt (by omega))

theorem breakOn_eq_none (sep s : GoString)
    (h : ∀ t, t <:+ s → t ≠ [] → sep.isPrefixOf t = false) :
    breakOn sep s = none := by
  induction s with
  | nil => rfl
  | cons c cs ih =>
    rw [breakOn]
    rw [h (c :: cs) (List.suffix_refl _) (by simp)]
    simp only [Bool.false_eq_true, if_false]
    rw [ih (fun t ht htne => h t (ht.trans (List.suffix_cons c cs)) htne)]

theorem breakOn_append_sep (sep : GoString) (hsep : sep ≠ []) (b : GoString) :
    ∀ a, (∀ t, t <:+ a → t ≠ [] → sep.isPrefixOf (t ++ (sep ++ b)) = false) →
      breakOn sep (a ++ (sep ++ b)) = some (a, b) := by
  intro a
  induction a with
  | nil =>
    intro _
    obtain ⟨s₀, tl, hsep_eq⟩ := List.exists_cons_of_ne_nil hsep
    rw [List.nil_append]
    conv_lhs => rw [hsep_eq, List.cons_append]
    rw [breakOn]
    have hpre : sep.isPrefixOf (sep ++ b) = true :=
      List.isPrefixOf_iff_prefix.mpr (List.prefix_append sep b)
    rw [hsep_eq] at hpre
    rw [List.cons_append] at hpre
    rw [hpre]
    simp only [if_true]
    rw [← List.cons_append, ← hsep_eq, List.drop_left]
  | cons c a' ih =>
    intro h
    have hfalse := h (c :: a') (List.suffix_refl _) (by simp)
    rw [List.cons_append]
    rw [breakOn]
    rw [List.cons_append] at hfalse
    rw [hfalse]
    simp only [Bool.false_eq_true, if_false]
    rw [ih (fun t ht htne => h t (ht.trans (List.suffix_cons c a')) htne)]

theorem getLast?_of_singleton_suffix (c : Char) (a : GoString) (h : [c] <:+ a) :
    a.getLast? = some c := by
  obtain ⟨p, rfl⟩ := h
  exact List.getLast?_concat p

theorem prefixOf_false_of_single (x : Char) (a rest : GoString) (h : x ∉ a) :
    ∀ t, t <:+ a → t ≠ [] → [x].isPrefixOf (t ++ rest) = false := by
  intro t ht htne
  obtain ⟨c, t', rfl⟩ := List.exists_cons_of_ne_nil htne
  have hc : c ∈ a := ht.subset (List.mem_cons_self c t')
  have hcx : x ≠ c := fun heq => h (heq ▸ hc)
  rw [List.cons_append]
  show (x == c && List.isPrefixOf [] (t' ++ rest)) = false
  simp [beq_eq_false_iff_ne.mpr hcx]

theorem prefixOf_false_of_pair (x y : Char) (a rest : GoString)
    (hchain : List.Chain' (fun c₁ c₂ => ¬(c₁ = x ∧ c₂ = y)) a)
    (hlast : a.getLast? = some x → rest.head? ≠ some y) :
    ∀ t, t <:+ a → t ≠ [] → [x, y].isPrefixOf (t ++ rest) = false := by
  intro t ht htne
  obtain ⟨c, t', rfl⟩ := List.exists_cons_of_ne_nil htne
  match t' with
  | [] =>
    rw [List.cons_append, List.nil_append]
    show (x == c && [y].isPrefixOf rest) = false
    by_cases hc : x = c
    · subst hc
      have hlast' := hlast (getLast?_of_singleton_suffix x a ht)
      match rest with
      | [] => simp [List.isPrefixOf]
      | r :: rs =>
        show (x == x && (y == r && List.isPrefixOf [] rs)) = false
        have hyr : y ≠ r := fun heq => hlast' (by rw [heq]; rfl)
        simp [beq_eq_false_iff_ne.mpr hyr]
    · simp [beq_eq_false_iff_ne.mpr hc]
  | c₂ :: t'' =>
    have hR : ¬(c = x ∧ c₂ = y) := by
      have := (hchain.suffix ht)
      exact (List.chain'_cons.mp this).1
    rw [List.cons_append, List.cons_append]
    show (x == c && (y == c₂ && List.isPrefixOf [] (t'' ++ rest))) = false
    by_cases hc : x = c
    · have hyc : y ≠ c₂ := fun heq => hR ⟨hc.symm, heq.symm⟩
      simp [beq_eq_false_iff_ne.mpr hyc]
    · simp [beq_eq_false_iff_ne.mpr hc]

theorem chain_pair_of_not_mem (x y : Char) (l : GoString) (h : ∀ c ∈ l, c ≠ x) :
    List.Chain' (fun c₁ c₂ => ¬(c₁ = x ∧ c₂ = y)) l := by
  induction l with
  | nil => exact List.chain'_nil
  | cons c cs ih =>
    refine List.chain'_cons'.mpr ⟨fun z _ => ?_, ih (fun d hd => h d (List.mem_cons_of_mem c hd))⟩
    exact fun ⟨hcx, _⟩ => h c (List.mem_cons_self c cs) hcx

theorem chain_pair_append (x y : Char) (L rest : GoString) (hL : x ∉ L)
    (hrest : List.Chain' (fun c₁ c₂ => ¬(c₁ = x ∧ c₂ = y)) rest)
    (hhead : rest.head? ≠ some y) :
    List.Chain' (fun c₁ c₂ => ¬(c₁ = x ∧ c₂ = y)) (L ++ x :: rest) := by
  induction L with
  | nil =>
    refine List.chain'_cons'.mpr ⟨fun z hz => ?_, hrest⟩
    exact fun ⟨_, hzy⟩ => hhead (hzy ▸ hz)
  | cons c cs ih =>
    rw [List.cons_append]
    refine List.chain'_cons'.mpr ⟨fun z _ => ?_, ih (fun hmem => hL (List.mem_cons_of_mem c hmem))⟩
    exact fun ⟨hcx, _⟩ => hL (hcx ▸ List.mem_cons_self c cs)

theorem splitGo_nl_cons (L rest : GoString) (hL : '\n' ∉ L) :
    splitGo (gs "\n") (L ++ '\n' :: rest) = L :: splitGo (gs "\n") rest := by
  have hsep : gs "\n" ≠ [] := by decide
  refine splitGo_break_some _ hsep _ _ _ ?_
  have h : ∀ t, t <:+ L → t ≠ [] → (gs "\n").isPrefixOf (t ++ (gs "\n" ++ rest)) = false :=
    prefixOf_false_of_single '\n' L (gs "\n" ++ rest) hL
  exact breakOn_append_sep (gs "\n") hsep rest L h

theorem splitGo_nl_single (L : GoString) (hL : '\n' ∉ L) :
    splitGo (gs "\n") L = [L] := by
  have hsep : gs "\n" ≠ [] := by decide
  refine splitGo_break_none _ hsep _ (breakOn_eq_none _ _ (fun t ht htne => ?_))
  have := prefixOf_false_of_single '\n' L [] hL t ht htne
  rwa [List.append_nil] at this

theorem splitGo_colon_cons (a b : GoString)
    (hchain : List.Chain' (fun c₁ c₂ => ¬(c₁ = ':' ∧ c₂ = ' ')) a) :
    splitGo (gs ": ") (a ++ (gs ": " ++ b)) = a :: splitGo (gs ": ") b := by
  have hsep : gs ": " ≠ [] := by decide
  refine splitGo_break_some _ hsep _ _ _ ?_
  refine breakOn_append_sep (gs ": ") hsep b a ?_
  refine prefixOf_false_of_pair ':' ' ' a (gs ": " ++ b) hchain (fun _ h => ?_)
  exact absurd (Option.some.inj ((rfl : some ':' = (gs ": " ++ b).head?).trans h))
    (by decide)

theorem splitGo_colon_single (v : GoString)
    (hchain : List.Chain' (fun c₁ c₂ => ¬(c₁ = ':' ∧ c₂ = ' ')) v) :
    splitGo (gs ": ") v = [v] := by
  have hsep : gs ": " ≠ [] := by decide
  refine splitGo_break_none _ hsep _ (breakOn_eq_none _ _ (fun t ht htne => ?_))
  have := prefixOf_false_of_pair ':' ' ' v [] hchain
    (fun _ h => by simp at h) t ht htne
  rwa [List.append_nil] at this

theorem cleanValue_of_not_mem (v : GoString) (h1 : '\n' ∉ v) (h2 : ':' ∉ v) :
    CleanValue v :=
  ⟨h1, chain_pair_of_not_mem ':' ' ' v (fun _ hc hceq => h2 (hceq ▸ hc))⟩

theorem chain_lit (l : GoString) (h : ':' ∉ l) :
    List.Chain' (fun c₁ c₂ => ¬(c₁ = ':' ∧ c₂ = ' ')) l :=
  chain_pair_of_not_mem ':' ' ' l (fun _ hc hceq => h (hceq ▸ hc))

theorem not_mem_append_of (x : Char) (l₁ l₂ : GoString) (h₁ : x ∉ l₁)
    (h₂ : x ∉ l₂) : x ∉ l₁ ++ l₂ :=
  fun h => (List.mem_append.mp h).elim h₁ h₂

theorem parseLine_package (pre : GoString) (entry : XdebPackageDefinition)
    (n : GoString) (hn : CleanValue n) :
    parsePackagesLine pre entry (gs "Package: " ++ n) =
      some { entry with Name := n } := by
  show parsePackagesLine pre entry (gs "Package" ++ (gs ": " ++ n)) =
    some { entry with Name := n }
  have hsplit : splitGo (gs ": ") (gs "Package" ++ (gs ": " ++ n)) =
      [gs "Package", n] := by
    rw [splitGo_colon_cons _ _ (chain_lit _ (by decide)), splitGo_colon_single n hn.2]
  simp only [parsePackagesLine,
    (rfl : (gs "Package:").isPrefixOf (gs "Package" ++ (gs ": " ++ n)) = true),
    if_true, hsplit]
  rfl

theorem parseLine_version (pre : GoString) (entry : XdebPackageDefinition)
    (v : GoString) (hv : CleanValue v) :
    parsePackagesLine pre entry (gs "Version: " ++ v) =
      some { entry with Version := v } := by
  show parsePackagesLine pre entry (gs "Version" ++ (gs ": " ++ v)) =
    some { entry with Version := v }
  have hsplit : splitGo (gs ": ") (gs "Version" ++ (gs ": " ++ v)) =
      [gs "Version", v] := by
    rw [splitGo_colon_cons _ _ (chain_lit _ (by decide)), splitGo_colon_single v hv.2]
  simp only [parsePackagesLine,
    (rfl : (gs "Package:").isPrefixOf (gs "Version" ++ (gs ": " ++ v)) = false),
    (rfl : (gs "Version:").isPrefixOf (gs "Version" ++ (gs ": " ++ v)) = true),
    Bool.false_eq_true, if_false, if_true, hsplit]
  rfl

theorem parseLine_filename (pre : GoString) (entry : XdebPackageDefinition)
    (f : GoString) (hf : CleanValue f) :
    parsePackagesLine pre entry (gs "Filename: " ++ f) =
      some { entry with Url := pre ++ '/' :: f } := by
  show parsePackagesLine pre entry (gs "Filename" ++ (gs ": " ++ f)) =
    some { entry with Url := pre ++ '/' :: f }
  have hsplit : splitGo (gs ": ") (gs "Filename" ++ (gs ": " ++ f)) =
      [gs "Filename", f] := by
    rw [splitGo_colon_cons _ _ (chain_lit _ (by decide)), splitGo_colon_single f hf.2]
  simp only [parsePackagesLine,
    (rfl : (gs "Package:").isPrefixOf (gs "Filename" ++ (gs ": " ++ f)) = false),
    (rfl : (gs "Version:").isPrefixOf (gs "Filename" ++ (gs ": " ++ f)) = false),
    (rfl : (gs "Filename:").isPrefixOf (gs "Filename" ++ (gs ": " ++ f)) = true),
    Bool.false_eq_true, if_false, if_true, hsplit]
  rfl

theorem parseLine_sha256 (pre : GoString) (entry : XdebPackageDefinition)
    (s : GoString) (hs : CleanValue s) :
    parsePackagesLine pre entry (gs "SHA256: " ++ s) =
      some { entry with Sha256 := s } := by
  show parsePackagesLine pre entry (gs "SHA256" ++ (gs ": " ++ s)) =
    some { entry with Sha256 := s }
  have hsplit : splitGo (gs ": ") (gs "SHA256" ++ (gs ": " ++ s)) =
      [gs "SHA256", s] := by
    rw [splitGo_colon_cons _ _ (chain_lit _ (by decide)), splitGo_colon_single s hs.2]
  simp only [parsePackagesLine,
    (rfl : (gs "Package:").isPrefixOf (gs "SHA256" ++ (gs ": " ++ s)) = false),
    (rfl : (gs "Version:").isPrefixOf (gs "SHA256" ++ (gs ": " ++ s)) = false),
    (rfl : (gs "Filename:").isPrefixOf (gs "SHA256" ++ (gs ": " ++ s)) = false),
    (rfl : (gs "SHA256:").isPrefixOf (gs "SHA256" ++ (gs ": " ++ s)) = true),
    Bool.false_eq_true, if_false, if_true, hsplit]
  rfl

theorem mkRecord_grouped (n v f s : GoString) :
    mkRecord n v f s = (gs "Package: " ++ n) ++ '\n' :: ((gs "Version: " ++ v) ++
      '\n' :: ((gs "Filename: " ++ f) ++ '\n' :: (gs "SHA256: " ++ s))) := by
  simp [mkRecord, List.append_assoc]

theorem splitGo_nl_mkRecord (n v f s : GoString) (hn : '\n' ∉ n) (hv : '\n' ∉ v)
    (hf : '\n' ∉ f) (hs : '\n' ∉ s) :
    splitGo (gs "\n") (mkRecord n v f s) =
      [gs "Package: " ++ n, gs "Version: " ++ v, gs "Filename: " ++ f,
        gs "SHA256: " ++ s] := by
  rw [mkRecord_grouped,
    splitGo_nl_cons _ _ (not_mem_append_of '\n' _ _ (by decide) hn),
    splitGo_nl_cons _ _ (not_mem_append_of '\n' _ _ (by decide) hv),
    splitGo_nl_cons _ _ (not_mem_append_of '\n' _ _ (by decide) hf),
    splitGo_nl_single _ (not_mem_append_of '\n' _ _ (by decide) hs)]

theorem parsePackagesRecord_mkRecord (pre n v f s : GoString)
    (hn : CleanValue n) (hv : CleanValue v) (hf : CleanValue f)
    (hs : CleanValue s) :
    parsePackagesRecord pre (mkRecord n v f s) =
      some ⟨n, v, pre ++ '/' :: f, s⟩ := by
  unfold parsePackagesRecord
  rw [splitGo_nl_mkRecord n v f s hn.1 hv.1 hf.1 hs.1]
  rw [List.foldlM_cons, parseLine_package pre _ n hn]
  show (parsePackagesLine pre ⟨n, [], [], []⟩ (gs "Version: " ++ v) >>= fun b =>
    List.foldlM (parsePackagesLine pre) b [gs "Filename: " ++ f, gs "SHA256: " ++ s]) =
    some ⟨n, v, pre ++ '/' :: f, s⟩
  rw [parseLine_version pre _ v hv]
  show (parsePackagesLine pre ⟨n, v, [], []⟩ (gs "Filename: " ++ f) >>= fun b =>
    List.foldlM (parsePackagesLine pre) b [gs "SHA256: " ++ s]) =
    some ⟨n, v, pre ++ '/' :: f, s⟩
  rw [parseLine_filename pre _ f hf]
  show (parsePackagesLine pre ⟨n, v, pre ++ '/' :: f, []⟩ (gs "SHA256: " ++ s) >>=
    fun b => List.foldlM (parsePackagesLine pre) b []) =
    some ⟨n, v, pre ++ '/' :: f, s⟩
  rw [parseLine_sha256 pre _ s hs]
  rfl

theorem chain_nlnl_mkRecord (n v f s : GoString) (hn : '\n' ∉ n) (hv : '\n' ∉ v)
    (hf : '\n' ∉ f) (hs : '\n' ∉ s) :
    List.Chain' (fun c₁ c₂ => ¬(c₁ = '\n' ∧ c₂ = '\n')) (mkRecord n v f s) := by
  rw [mkRecord_grouped]
  refine chain_pair_append '\n' '\n' _ _ (not_mem_append_of '\n' _ _ (by decide) hn)
    ?_ ?_
  · refine chain_pair_append '\n' '\n' _ _ (not_mem_append_of '\n' _ _ (by decide) hv)
      ?_ ?_
    · refine chain_pair_append '\n' '\n' _ _ (not_mem_append_of '\n' _ _ (by decide) hf)
        ?_ ?_
      · exact chain_pair_of_not_mem '\n' '\n' _
          (fun c hc hceq => not_mem_append_of '\n' _ _ (by decide) hs (hceq ▸ hc))
      · exact fun h => absurd (Option.some.inj
          ((rfl : some 'S' = (gs "SHA256: " ++ s).head?).trans h)) (by decide)
    · exact fun h => absurd (Option.some.inj
        ((rfl : some 'F' = ((gs "Filename: " ++ f) ++ '\n' ::
          (gs "SHA256: " ++ s)).head?).trans h)) (by decide)
  · exact fun h => absurd (Option.some.inj
      ((rfl : some 'V' = ((gs "Version: " ++ v) ++ '\n' :: ((gs "Filename: " ++ f) ++
        '\n' :: (gs "SHA256: " ++ s))).head?).trans h)) (by decide)

theorem getLast?_append_nl (l₁ l₂ : GoString) (h : l₂ ≠ []) :
    (l₁ ++ '\n' :: l₂).getLast? = l₂.getLast? := by
  obtain ⟨x, xs, rfl⟩ := List.exists_cons_of_ne_nil h
  rw [List.getLast?_append_of_ne_nil _ (by simp), List.getLast?_cons_cons]

theorem getLast_mkRecord_ne_nl (n v f s : GoString) (hs : '\n' ∉ s) :
    (mkRecord n v f s).getLast? ≠ some '\n' := by
  rw [mkRecord_grouped, getLast?_append_nl _ _ (by simp), getLast?_append_nl _ _
    (by simp), getLast?_append_nl _ _ (show gs "SHA256: " ++ s ≠ [] from List.cons_ne_nil 'S' _)]
  by_cases hnil : s = []
  · subst hnil
    rw [List.append_nil]
    decide
  · rw [List.getLast?_append_of_ne_nil _ hnil]
    intro hcon
    obtain ⟨hne, heq⟩ := List.mem_getLast?_eq_getLast hcon
    exact hs (heq ▸ List.getLast_mem hne)

theorem splitGo_nlnl_record_cons (r₁ r₂ : GoString)
    (hc₁ : List.Chain' (fun c₁ c₂ => ¬(c₁ = '\n' ∧ c₂ = '\n')) r₁)
    (hl₁ : r₁.getLast? ≠ some '\n') :
    splitGo (gs "\n\n") (r₁ ++ (gs "\n\n" ++ r₂)) =
      r₁ :: splitGo (gs "\n\n") r₂ := by
  have hsep : gs "\n\n" ≠ [] := by decide
  refine splitGo_break_some _ hsep _ _ _ ?_
  refine breakOn_append_sep _ hsep r₂ r₁ ?_
  exact prefixOf_false_of_pair '\n' '\n' r₁ _ hc₁ (fun hg => absurd hg hl₁)

theorem splitGo_nlnl_single (r : GoString)
    (hc : List.Chain' (fun c₁ c₂ => ¬(c₁ = '\n' ∧ c₂ = '\n')) r) :
    splitGo (gs "\n\n") r = [r] := by
  have hsep : gs "\n\n" ≠ [] := by decide
  refine splitGo_break_none _ hsep _ (breakOn_eq_none _ _ (fun t ht htne => ?_))
  have := prefixOf_false_of_pair '\n' '\n' r [] hc
    (fun _ h => Option.noConfusion h) t ht htne
  rwa [List.append_nil] at this

theorem parseStep_mkRecord (pre : GoString) (acc : List XdebPackageDefinition)
    (n v f s : GoString) (hn : CleanValue n) (hv : CleanValue v)
    (hf : CleanValue f) (hs : CleanValue s) :
    (if (mkRecord n v f s).length = 0 then some acc
     else match parsePackagesRecord pre (mkRecord n v f s) with
       | none => none
       | some entry => some (acc ++ [entry])) =
    some (acc ++ [⟨n, v, pre ++ '/' :: f, s⟩]) := by
  rw [if_neg (show ¬(mkRecord n v f s).length = 0 by simp [mkRecord]),
    parsePackagesRecord_mkRecord pre n v f s hn hv hf hs]

/-- C7: an index blob of two well-formed records separated by a blank line
parses to exactly two entries, in source order, each with `url` equal to the
prefix, a slash, and that record's `Filename` value. -/
theorem parsePackagesFile_two_records (pre n₁ v₁ f₁ s₁ n₂ v₂ f₂ s₂ : GoString)
    (hn₁ : CleanValue n₁) (hv₁ : CleanValue v₁) (hf₁ : CleanValue f₁)
    (hs₁ : CleanValue s₁) (hn₂ : CleanValue n₂) (hv₂ : CleanValue v₂)
    (hf₂ : CleanValue f₂) (hs₂ : CleanValue s₂) :
    parsePackagesFile pre
      (mkRecord n₁ v₁ f₁ s₁ ++ gs "\n\n" ++ mkRecord n₂ v₂ f₂ s₂) =
      some ⟨[⟨n₁, v₁, pre ++ '/' :: f₁, s₁⟩, ⟨n₂, v₂, pre ++ '/' :: f₂, s₂⟩]⟩ := by
  unfold parsePackagesFile
  rw [List.append_assoc,
      splitGo_nlnl_record_cons _ _
        (chain_nlnl_mkRecord n₁ v₁ f₁ s₁ hn₁.1 hv₁.1 hf₁.1 hs₁.1)
        (getLast_mkRecord_ne_nl n₁ v₁ f₁ s₁ hs₁.1),
      splitGo_nlnl_single _
        (chain_nlnl_mkRecord n₂ v₂ f₂ s₂ hn₂.1 hv₂.1 hf₂.1 hs₂.1)]
  simp only [List.foldlM_cons, List.foldlM_nil]
  rw [parseStep_mkRecord pre [] n₁ v₁ f₁ s₁ hn₁ hv₁ hf₁ hs₁]
  simp only [Option.bind_eq_bind, Option.some_bind]
  rw [parseStep_mkRecord pre _ n₂ v₂ f₂ s₂ hn₂ hv₂ hf₂ hs₂]
  rfl

/-- Witness for C7 at a concrete two-record blob. -/
theorem parsePackagesFile_two_records_witness :
    parsePackagesFile (gs "http://m")
      (mkRecord (gs "alpha") (gs "1.0") (gs "pool/alpha.deb") (gs "aaa") ++
        gs "\n\n" ++
        mkRecord (gs "beta") (gs "2.0") (gs "pool/beta.deb") (gs "bbb")) =
      some ⟨[⟨gs "alpha", gs "1.0", gs "http://m" ++ '/' :: gs "pool/alpha.deb",
              gs "aaa"⟩,
            ⟨gs "beta", gs "2.0", gs "http://m" ++ '/' :: gs "pool/beta.deb",
              gs "bbb"⟩]⟩ :=
  parsePackagesFile_two_records (gs "http://m") (gs "alpha") (gs "1.0")
    (gs "pool/alpha.deb") (gs "aaa") (gs "beta") (gs "2.0") (gs "pool/beta.deb")
    (gs "bbb")
    (cleanValue_of_not_mem _ (by decide) (by decide))
    (cleanValue_of_not_mem _ (by decide) (by decide))
    (cleanValue_of_not_mem _ (by decide) (by decide))
    (cleanValue_of_not_mem _ (by decide) (by decide))
    (cleanValue_of_not_mem _ (by decide) (by decide))
    (cleanValue_of_not_mem _ (by decide) (by decide))
    (cleanValue_of_not_mem _ (by decide) (by decide))
    (cleanValue_of_not_mem _ (by decide) (by decide))

theorem parseLine_package_composite (pre : GoString)
    (entry : XdebPackageDefinition) (a b : GoString) (ha : CleanValue a)
    (hb : CleanValue b) :
    parsePackagesLine pre entry (gs "Package: " ++ (a ++ (gs ": " ++ b))) =
      some { entry with Name := a } := by
  show parsePackagesLine pre entry
    (gs "Package" ++ (gs ": " ++ (a ++ (gs ": " ++ b)))) =
    some { entry with Name := a }
  have hsplit : splitGo (gs ": ")
      (gs "Package" ++ (gs ": " ++ (a ++ (gs ": " ++ b)))) =
      [gs "Package", a, b] := by
    rw [splitGo_colon_cons _ _ (chain_lit _ (by decide)),
      splitGo_colon_cons _ _ ha.2, splitGo_colon_single b hb.2]
  simp only [parsePackagesLine,
    (rfl : (gs "Package:").isPrefixOf
      (gs "Package" ++ (gs ": " ++ (a ++ (gs ": " ++ b)))) = true),
    if_true, hsplit]
  rfl

theorem parsePackagesRecord_single (pre line : GoString) (hnl : '\n' ∉ line) :
    parsePackagesRecord pre line = parsePackagesLine pre ⟨[], [], [], []⟩ line := by
  unfold parsePackagesRecord
  rw [splitGo_nl_single line hnl, List.foldlM_cons]
  simp [List.foldlM_nil]

theorem parsePackagesFile_single (pre r : GoString) (hnl : '\n' ∉ r)
    (h0 : r.length ≠ 0) (e : XdebPackageDefinition)
    (hrec : parsePackagesRecord pre r = some e) :
    parsePackagesFile pre r = some ⟨[e]⟩ := by
  unfold parsePackagesFile
  rw [splitGo_nlnl_single r
    (chain_pair_of_not_mem '\n' '\n' r (fun _ hc hceq => hnl (hceq ▸ hc)))]
  simp only [List.foldlM_cons, List.foldlM_nil]
  rw [if_neg h0, hrec]
  rfl

/-- C4 amended: the value stored for a recognized line is the segment
strictly between the first and second `": "` separators — everything after
the first separator only when the value holds no further `": "`; a value
containing `": "` is truncated at it. -/
theorem parsePackagesFile_value_between_separators (pre a b : GoString)
    (ha : CleanValue a) (hb : CleanValue b) :
    parsePackagesFile pre (gs "Package: " ++ a) = some ⟨[⟨a, [], [], []⟩]⟩ ∧
    parsePackagesFile pre (gs "Package: " ++ (a ++ (gs ": " ++ b))) =
      some ⟨[⟨a, [], [], []⟩]⟩ := by
  constructor
  · refine parsePackagesFile_single pre _
      (not_mem_append_of '\n' _ _ (by decide) ha.1)
      (fun h => List.cons_ne_nil 'P' _ (List.length_eq_zero.mp h)) _ ?_
    exact (parsePackagesRecord_single pre _
      (not_mem_append_of '\n' _ _ (by decide) ha.1)).trans
      (parseLine_package pre _ a ha)
  · refine parsePackagesFile_single pre _
      (not_mem_append_of '\n' _ _ (by decide)
        (not_mem_append_of '\n' _ _ ha.1
          (not_mem_append_of '\n' _ _ (by decide) hb.1)))
      (fun h => List.cons_ne_nil 'P' _ (List.length_eq_zero.mp h)) _ ?_
    exact (parsePackagesRecord_single pre _
      (not_mem_append_of '\n' _ _ (by decide)
        (not_mem_append_of '\n' _ _ ha.1
          (not_mem_append_of '\n' _ _ (by decide) hb.1)))).trans
      (parseLine_package_composite pre _ a b ha hb)

/-- Witness for C4 amended at concrete values `foo` and `bar`. -/
theorem parsePackagesFile_value_between_separators_witness :
    parsePackagesFile (gs "p") (gs "Package: " ++ gs "foo") =
      some ⟨[⟨gs "foo", [], [], []⟩]⟩ ∧
    parsePackagesFile (gs "p") (gs "Package: " ++ (gs "foo" ++ (gs ": " ++ gs "bar"))) =
      some ⟨[⟨gs "foo", [], [], []⟩]⟩ :=
  parsePackagesFile_value_between_separators (gs "p") (gs "foo") (gs "bar")
    (cleanValue_of_not_mem _ (by decide) (by decide))
    (cleanValue_of_not_mem _ (by decide) (by decide))

end Xdeb
